import Mathlib

/-!
Verification of the state-compression tool (`src/main.rs`).

The tool holds a delta forest: a `BTreeMap<i64, StateGroupEntry>` mapping a
state group id (SID) to an optional predecessor SID plus a `StateMap` delta.
`collapse_state_maps` walks the predecessor chain and folds the deltas from
the root towards the requested SID.  `main` additionally contains the SQL
diff emitter, the parallel verification pass and the `level_sizes` argument
parser.  Each of those is embedded below, directly from the source; the two
pieces that live outside the provided sources (`StateMap` from the
`state_map` crate and `PGEscapse` from the `database` module) are modelled
from the specification, as marked on their definitions.
-/

set_option autoImplicit false

namespace SynapseCompress

/-- A state key: the `(type, state_key)` pair of interned strings. -/
abbrev SKey := String × String

/-- Modelled from the spec: `StateMap` comes from the external `state_map`
crate.  Per the spec it is an ordered associative container from
`(type, state_key)` to `event_id` with a stable iteration order (sorted or
insertion order, implementor's choice); we keep it sorted by key so that
structural equality coincides with the content equality Rust's `==` uses. -/
abbrev StateMap := List (SKey × String)

/-- Strict lexicographic order on state keys, used to keep `StateMap` sorted. -/
def skeyLt (a b : SKey) : Bool :=
  decide (a.1 < b.1) || (a.1 == b.1 && decide (a.2 < b.2))

/-- The empty `StateMap` (`StateMap::new`). -/
def smEmpty : StateMap := []

/-- Insert (or overwrite) one key/value pair, keeping the list sorted. -/
def smInsert : StateMap → SKey → String → StateMap
  | [], k, v => [(k, v)]
  | (k0, v0) :: rest, k, v =>
    if skeyLt k k0 then (k, v) :: (k0, v0) :: rest
    else if k = k0 then (k, v) :: rest
    else (k0, v0) :: smInsert rest k v

/-- Extend `m` by every entry of `other`; entries of `other` win
(`StateMap::extend`). -/
def smExtend (m other : StateMap) : StateMap :=
  other.foldl (fun acc kv => smInsert acc kv.1 kv.2) m

/-- Look a key up in a `StateMap` (first matching entry). -/
def smLookup : StateMap → SKey → Option String
  | [], _ => none
  | (k0, v0) :: rest, k => if k = k0 then some v0 else smLookup rest k

/-- An entry for a state group: an optional previous group and the delta from
that previous group (`StateGroupEntry` in `main.rs`). -/
structure StateGroupEntry where
  prev_state_group : Option Int
  state_map : StateMap
deriving DecidableEq

/-- The in-memory forest: the `BTreeMap<i64, StateGroupEntry>`, embedded as an
association list; the list order is the map's ascending iteration order. -/
abbrev Forest := List (Int × StateGroupEntry)

/-- Key lookup in the forest (`map.get` / `map[&sid]`). -/
def findEntry : Forest → Int → Option StateGroupEntry
  | [], _ => none
  | (k, e) :: rest, sg => if k = sg then some e else findEntry rest sg

/-- The key set of the forest, in iteration order. -/
def forestKeys (map : Forest) : List Int := map.map Prod.fst

/-- The delta stored for a SID (empty when the SID is absent). -/
def deltaOf (map : Forest) (sg : Int) : StateMap :=
  match findEntry map sg with
  | some e => e.state_map
  | none => []

/-- Outcome of the predecessor walk inside `collapse_state_maps`.  The Rust
loop has no fuel: `outOfFuel` marks that the loop was still running after the
given number of iterations. -/
inductive WalkResult where
  | stack (sids : List Int)
  | missing (sid : Int)
  | outOfFuel
deriving DecidableEq

/-- The `while let Some(prev_state_group) = entry.prev_state_group` loop of
`collapse_state_maps`: follow predecessors, accumulating the visited SIDs in
push order, and `panic!("Missing {}", prev)` when a predecessor is absent. -/
def walkPrev (map : Forest) : Option Int → List Int → Nat → WalkResult
  | none, acc, _ => WalkResult.stack acc
  | some p, _, 0 =>
    match findEntry map p with
    | none => WalkResult.missing p
    | some _ => WalkResult.outOfFuel
  | some p, acc, Nat.succ fuel =>
    match findEntry map p with
    | none => WalkResult.missing p
    | some e => walkPrev map e.prev_state_group (acc ++ [p]) fuel

/-- The `for sg in stack.iter().rev()` fold of `collapse_state_maps`: extend
the accumulated state with each delta; `map[&sg]` on an absent key is a
panic, reported as `Except.error sg`. -/
def extendAll (map : Forest) : List Int → StateMap → Except Int StateMap
  | [], m => Except.ok m
  | sg :: rest, m =>
    match findEntry map sg with
    | none => Except.error sg
    | some e => extendAll map rest (smExtend m e.state_map)

/-- Result of `collapse_state_maps`: the collapsed map, a panic on a missing
SID (the initial `map[&state_group]` index or the mid-walk
`panic!("Missing {}", prev)`, carrying the absent SID), or still looping
after the given iteration bound. -/
inductive CollapseResult where
  | ok (m : StateMap)
  | panicked (missingSid : Int)
  | outOfFuel
deriving DecidableEq

/-- `collapse_state_maps` from `main.rs`: look up the requested group, walk
the predecessor chain, then fold the deltas in reverse (root first). -/
def collapse_state_maps (map : Forest) (state_group : Int) (fuel : Nat) :
    CollapseResult :=
  match findEntry map state_group with
  | none => CollapseResult.panicked state_group
  | some entry =>
    match walkPrev map entry.prev_state_group [state_group] fuel with
    | WalkResult.stack sids =>
      match extendAll map sids.reverse smEmpty with
      | Except.ok m => CollapseResult.ok m
      | Except.error sg => CollapseResult.panicked sg
    | WalkResult.missing p => CollapseResult.panicked p
    | WalkResult.outOfFuel => CollapseResult.outOfFuel

/-- Whether a collapse produced a state map. -/
def CollapseResult.isOk : CollapseResult → Bool
  | CollapseResult.ok _ => true
  | _ => false

/-- A full predecessor chain: consecutive elements are linked through
`prev_state_group`, every element is present in the forest, and the last
element is a root (no predecessor). -/
def chainOk (map : Forest) : List Int → Bool
  | [] => false
  | [s] =>
    match findEntry map s with
    | some e => decide (e.prev_state_group = none)
    | none => false
  | s :: s2 :: rest =>
    match findEntry map s with
    | some e => decide (e.prev_state_group = some s2) && chainOk map (s2 :: rest)
    | none => false

/-- A chain that breaks: consecutive elements are linked and present, and the
predecessor of the last element is `p`, a SID absent from the forest. -/
def brokenChain (map : Forest) : List Int → Int → Bool
  | [], _ => false
  | [s], p =>
    match findEntry map s with
    | some e => decide (e.prev_state_group = some p) && (findEntry map p).isNone
    | none => false
  | s :: s2 :: rest, p =>
    match findEntry map s with
    | some e => decide (e.prev_state_group = some s2) && brokenChain map (s2 :: rest) p
    | none => false

/-- The collapsed state as the spec words it: start from empty and extend
with the deltas of the chain in reverse order, root first. -/
def specCollapse (map : Forest) (c : List Int) : StateMap :=
  c.reverse.foldl (fun m sg => smExtend m (deltaOf map sg)) smEmpty

/-- The value predicted for a key: the one from the delta nearest to the head
of the chain that mentions the key. -/
def chainValue (map : Forest) : List Int → SKey → Option String
  | [], _ => none
  | sg :: rest, k =>
    match smLookup (deltaOf map sg) k with
    | some v => some v
    | none => chainValue map rest k

theorem chainOk_head (map : Forest) (s : Int) (c : List Int)
    (h : chainOk map (s :: c) = true) : ∃ e, findEntry map s = some e := by
  cases c with
  | nil =>
    cases hf : findEntry map s with
    | none => simp [chainOk, hf] at h
    | some e => exact ⟨e, rfl⟩
  | cons s2 rest =>
    cases hf : findEntry map s with
    | none => simp [chainOk, hf] at h
    | some e => exact ⟨e, rfl⟩

theorem brokenChain_head (map : Forest) (s p : Int) (c : List Int)
    (h : brokenChain map (s :: c) p = true) : ∃ e, findEntry map s = some e := by
  cases c with
  | nil =>
    cases hf : findEntry map s with
    | none => simp [brokenChain, hf] at h
    | some e => exact ⟨e, rfl⟩
  | cons s2 rest =>
    cases hf : findEntry map s with
    | none => simp [brokenChain, hf] at h
    | some e => exact ⟨e, rfl⟩

theorem chainOk_mem (map : Forest) :
    ∀ c : List Int, chainOk map c = true → ∀ x ∈ c, ∃ e, findEntry map x = some e := by
  intro c
  induction c with
  | nil => intro _ x hx; cases hx
  | cons s rest ih =>
    intro h x hx
    rcases List.mem_cons.mp hx with hx | hx
    · subst hx; exact chainOk_head map x rest h
    · cases rest with
      | nil => cases hx
      | cons s2 rest2 =>
        obtain ⟨e, he⟩ := chainOk_head map s (s2 :: rest2) h
        have htail : chainOk map (s2 :: rest2) = true := by
          simp [chainOk, he] at h
          exact h.2
        exact ih htail x hx

theorem walkPrev_chain (map : Forest) :
    ∀ (c : List Int) (s : Int) (e : StateGroupEntry) (acc : List Int) (fuel : Nat),
      chainOk map (s :: c) = true → findEntry map s = some e → c.length ≤ fuel →
      walkPrev map e.prev_state_group acc fuel = WalkResult.stack (acc ++ c) := by
  intro c
  induction c with
  | nil =>
    intro s e acc fuel h hf _
    have hprev : e.prev_state_group = none := by
      simp [chainOk, hf] at h
      exact h
    simp [hprev, walkPrev]
  | cons s2 rest ih =>
    intro s e acc fuel h hf hfuel
    obtain ⟨hprev, htail⟩ : e.prev_state_group = some s2 ∧ chainOk map (s2 :: rest) = true := by
      simp [chainOk, hf] at h
      exact h
    obtain ⟨e2, he2⟩ := chainOk_head map s2 rest htail
    cases fuel with
    | zero => simp at hfuel
    | succ f =>
      have hrec := ih s2 e2 (acc ++ [s2]) f htail he2 (by simpa using hfuel)
      simp [hprev, walkPrev, he2, hrec]

theorem walkPrev_broken (map : Forest) :
    ∀ (c : List Int) (p s : Int) (e : StateGroupEntry) (acc : List Int) (fuel : Nat),
      brokenChain map (s :: c) p = true → findEntry map s = some e → c.length ≤ fuel →
      walkPrev map e.prev_state_group acc fuel = WalkResult.missing p := by
  intro c
  induction c with
  | nil =>
    intro p s e acc fuel h hf _
    obtain ⟨hprev, hmiss⟩ :
        e.prev_state_group = some p ∧ findEntry map p = none := by
      simp [brokenChain, hf, Option.isNone_iff_eq_none] at h
      exact h
    cases fuel <;> simp [hprev, walkPrev, hmiss]
  | cons s2 rest ih =>
    intro p s e acc fuel h hf hfuel
    obtain ⟨hprev, htail⟩ :
        e.prev_state_group = some s2 ∧ brokenChain map (s2 :: rest) p = true := by
      simp [brokenChain, hf] at h
      exact h
    obtain ⟨e2, he2⟩ := brokenChain_head map s2 p rest htail
    cases fuel with
    | zero => simp at hfuel
    | succ f =>
      have hrec := ih p s2 e2 (acc ++ [s2]) f htail he2 (by simpa using hfuel)
      simp [hprev, walkPrev, he2, hrec]

theorem extendAll_ok (map : Forest) :
    ∀ (l : List Int) (m : StateMap),
      (∀ x ∈ l, ∃ e, findEntry map x = some e) →
      extendAll map l m =
        Except.ok (l.foldl (fun acc sg => smExtend acc (deltaOf map sg)) m) := by
  intro l
  induction l with
  | nil => intro m _; rfl
  | cons sg rest ih =>
    intro m h
    obtain ⟨e, he⟩ := h sg (List.mem_cons_self sg rest)
    have hd : deltaOf map sg = e.state_map := by simp [deltaOf, he]
    simp [extendAll, he, hd, ih (smExtend m e.state_map)
      (fun x hx => h x (List.mem_cons_of_mem _ hx))]

theorem smLookup_smInsert (m : StateMap) (k : SKey) (v : String) (k2 : SKey) :
    smLookup (smInsert m k v) k2 = if k2 = k then some v else smLookup m k2 := by
  induction m with
  | nil => by_cases hk : k2 = k <;> simp [smInsert, smLookup, hk]
  | cons kv rest ih =>
    obtain ⟨k0, v0⟩ := kv
    by_cases hlt : skeyLt k k0 = true
    · have hins : smInsert ((k0, v0) :: rest) k v = (k, v) :: (k0, v0) :: rest := by
        simp [smInsert, hlt]
      rw [hins]
      by_cases hk : k2 = k <;> simp [smLookup, hk]
    · by_cases hk0 : k = k0
      · subst hk0
        have hins : smInsert ((k, v0) :: rest) k v = (k, v) :: rest := by
          simp [smInsert, hlt]
        rw [hins]
        by_cases hk : k2 = k <;> simp [smLookup, hk]
      · have hins : smInsert ((k0, v0) :: rest) k v = (k0, v0) :: smInsert rest k v := by
          simp [smInsert, hlt, hk0]
        rw [hins]
        by_cases hk2 : k2 = k0
        · subst hk2
          have hne : ¬ k2 = k := fun hcontra => hk0 hcontra.symm
          simp [smLookup, hne]
        · simp [smLookup, hk2, ih]

theorem smLookup_eq_none (m : StateMap) (k : SKey) (h : k ∉ m.map Prod.fst) :
    smLookup m k = none := by
  induction m with
  | nil => rfl
  | cons kv rest ih =>
    simp only [List.map_cons, List.mem_cons] at h
    push_neg at h
    simp [smLookup, h.1, ih h.2]

theorem smLookup_smExtend (d : StateMap) :
    ∀ (m : StateMap) (k : SKey), (d.map Prod.fst).Nodup →
      smLookup (smExtend m d) k =
        match smLookup d k with
        | some v => some v
        | none => smLookup m k := by
  induction d with
  | nil => intro m k _; rfl
  | cons kv rest ih =>
    intro m k hnd
    obtain ⟨kd, vd⟩ := kv
    simp only [List.map_cons, List.nodup_cons] at hnd
    have hstep : smExtend m ((kd, vd) :: rest) = smExtend (smInsert m kd vd) rest := rfl
    rw [hstep, ih (smInsert m kd vd) k hnd.2]
    by_cases hk : k = kd
    · subst hk
      have hrest : smLookup rest k = none := smLookup_eq_none rest k hnd.1
      simp [hrest, smLookup, smLookup_smInsert]
    · cases hr : smLookup rest k <;> simp [hr, smLookup, hk, smLookup_smInsert]

theorem smLookup_specCollapse (map : Forest) :
    ∀ (c : List Int) (k : SKey),
      (∀ sg ∈ c, ((deltaOf map sg).map Prod.fst).Nodup) →
      smLookup (specCollapse map c) k = chainValue map c k := by
  intro c
  induction c with
  | nil => intro k _; rfl
  | cons sg rest ih =>
    intro k h
    have hstep : specCollapse map (sg :: rest) =
        smExtend (specCollapse map rest) (deltaOf map sg) := by
      simp [specCollapse, List.foldl_append]
    rw [hstep, smLookup_smExtend _ _ _ (h sg (List.mem_cons_self sg rest))]
    have hrest := ih k (fun x hx => h x (List.mem_cons_of_mem _ hx))
    cases hv : smLookup (deltaOf map sg) k <;> simp [chainValue, hv, hrest]

/-- C1: when the predecessor chain of `s` stays inside the forest and ends at
a root, `collapse_state_maps` returns exactly the StateMap obtained by
starting from empty and extending with the chain's deltas in reverse order
(root first), so that a key occurring in several deltas takes the value of
the delta nearest to `s`. -/
theorem c1_collapse_follows_chain (map : Forest) (c : List Int) (s : Int) (fuel : Nat)
    (hc : chainOk map c = true) (hs : c.head? = some s) (hfuel : c.length ≤ fuel + 1)
    (hwf : ∀ sg ∈ c, ((deltaOf map sg).map Prod.fst).Nodup) :
    collapse_state_maps map s fuel = CollapseResult.ok (specCollapse map c)
    ∧ ∀ k, smLookup (specCollapse map c) k = chainValue map c k := by
  cases c with
  | nil => cases hs
  | cons s0 c' =>
    have hs0 : s0 = s := by simpa using hs
    subst hs0
    obtain ⟨e, he⟩ := chainOk_head map s0 c' hc
    have hwalk := walkPrev_chain map c' s0 e [s0] fuel hc he (by simpa using hfuel)
    have hmem : ∀ x ∈ c'.reverse ++ [s0], ∃ e2, findEntry map x = some e2 := by
      intro x hx
      apply chainOk_mem map (s0 :: c') hc x
      rcases List.mem_append.mp hx with hx | hx
      · exact List.mem_cons_of_mem _ (List.mem_reverse.mp hx)
      · simp at hx
        simp [hx]
    have hext := extendAll_ok map (c'.reverse ++ [s0]) smEmpty hmem
    constructor
    · have hmid : collapse_state_maps map s0 fuel =
          match extendAll map (c'.reverse ++ [s0]) smEmpty with
          | Except.ok m => CollapseResult.ok m
          | Except.error sg => CollapseResult.panicked sg := by
        simp [collapse_state_maps, he, hwalk]
      rw [hmid, hext]
      simp [specCollapse, List.reverse_cons]
    · exact fun k => smLookup_specCollapse map (s0 :: c') k hwf

/-- C5: when the predecessor chain from `s`, after some steps inside the
forest, references a predecessor SID `p` absent from the forest,
`collapse_state_maps` panics naming `p` instead of returning a StateMap. -/
theorem c5_collapse_missing_pred_panics (map : Forest) (c : List Int) (s p : Int) (fuel : Nat)
    (hc : brokenChain map c p = true) (hs : c.head? = some s)
    (hfuel : c.length ≤ fuel + 1) :
    collapse_state_maps map s fuel = CollapseResult.panicked p := by
  cases c with
  | nil => cases hs
  | cons s0 c' =>
    have hs0 : s0 = s := by simpa using hs
    subst hs0
    obtain ⟨e, he⟩ := brokenChain_head map s0 p c' hc
    have hwalk := walkPrev_broken map c' p s0 e [s0] fuel hc he (by simpa using hfuel)
    simp [collapse_state_maps, he, hwalk]

/-- C9: collapsing a SID absent from the forest panics on the very first
lookup, for every iteration bound — no state map is ever produced. -/
theorem c9_collapse_absent_sid_panics (map : Forest) (s : Int) (fuel : Nat)
    (h : findEntry map s = none) :
    collapse_state_maps map s fuel = CollapseResult.panicked s := by
  simp [collapse_state_maps, h]

/-- A set of SIDs in which every member is present in the forest and has a
predecessor that again lies in the set: once the predecessor walk enters such
a set it can never leave it nor stop.  A predecessor cycle is a nonempty set
of this kind. -/
def trappedSet (map : Forest) (sids : List Int) : Bool :=
  sids.all (fun x =>
    match findEntry map x with
    | some e =>
      match e.prev_state_group with
      | some y => decide (y ∈ sids)
      | none => false
    | none => false)

theorem trappedSet_step (map : Forest) (sids : List Int)
    (h : trappedSet map sids = true) (x : Int) (hx : x ∈ sids) :
    ∃ e y, findEntry map x = some e ∧ e.prev_state_group = some y ∧ y ∈ sids := by
  have hx2 := (List.all_eq_true.mp h) x hx
  cases he : findEntry map x with
  | none => rw [he] at hx2; simp at hx2
  | some e =>
    rw [he] at hx2
    simp only at hx2
    cases hp : e.prev_state_group with
    | none => rw [hp] at hx2; simp at hx2
    | some y =>
      rw [hp] at hx2
      simp only [decide_eq_true_eq] at hx2
      exact ⟨e, y, rfl, hp, hx2⟩

theorem walkPrev_trapped (map : Forest) (sids : List Int)
    (h : trappedSet map sids = true) :
    ∀ (fuel : Nat) (x : Int), x ∈ sids → ∀ acc : List Int,
      walkPrev map (some x) acc fuel = WalkResult.outOfFuel := by
  intro fuel
  induction fuel with
  | zero =>
    intro x hx acc
    obtain ⟨e, y, he, _, _⟩ := trappedSet_step map sids h x hx
    simp [walkPrev, he]
  | succ f ih =>
    intro x hx acc
    obtain ⟨e, y, he, hp, hy⟩ := trappedSet_step map sids h x hx
    simp [walkPrev, he, hp, ih y hy]

/-- C6 (amended): when the predecessor chain from `s` enters a cycle — a set
of SIDs each present in the forest whose predecessors stay in the set —
`collapse_state_maps` never finishes: for every iteration bound the walk is
still running, and no error of any kind is produced. -/
theorem c6_collapse_cycle_diverges (map : Forest) (sids : List Int) (s : Int)
    (e : StateGroupEntry) (p : Int) (hset : trappedSet map sids = true)
    (hf : findEntry map s = some e) (hp : e.prev_state_group = some p)
    (hmem : p ∈ sids) (fuel : Nat) :
    collapse_state_maps map s fuel = CollapseResult.outOfFuel := by
  simp [collapse_state_maps, hf, hp, walkPrev_trapped map sids hset fuel p hmem]

/-- A two-element predecessor cycle: 1 points to 2 and 2 points to 1. -/
def cycForest : Forest := [(1, ⟨some 2, []⟩), (2, ⟨some 1, []⟩)]

/-- C6 counterexample: on the cyclic forest, collapsing SID 1 never reaches a
result or an error — at every iteration bound the walk is still running, so
the claimed fatal ForestInvariantViolation error never happens. -/
theorem c6_counterexample :
    ¬ ∃ fuel : Nat,
        collapse_state_maps cycForest 1 fuel ≠ CollapseResult.outOfFuel := by
  rintro ⟨fuel, hne⟩
  apply hne
  have hset : trappedSet cycForest [1, 2] = true := by decide
  have hwalk := walkPrev_trapped cycForest [1, 2] hset fuel 2 (by decide) [1]
  have hf : findEntry cycForest 1 = some ⟨some 2, []⟩ := by decide
  simp [collapse_state_maps, hf, hwalk]

/-- Witness for C1 on a two-element chain. -/
def w1Forest : Forest :=
  [(1, ⟨none, [(("m", "a"), "e1"), (("m", "b"), "e2")]⟩),
   (2, ⟨some 1, [(("m", "a"), "e3")]⟩)]

theorem c1_witness :
    collapse_state_maps w1Forest 2 1 = CollapseResult.ok (specCollapse w1Forest [2, 1]) :=
  (c1_collapse_follows_chain w1Forest [2, 1] 2 1 (by decide) rfl (by decide)
    (by decide)).1

/-- Witness forest for C5: SID 3 references the absent predecessor 7. -/
def w5Forest : Forest := [(3, ⟨some 7, []⟩)]

theorem c5_witness : collapse_state_maps w5Forest 3 2 = CollapseResult.panicked 7 :=
  c5_collapse_missing_pred_panics w5Forest [3] 3 7 2 (by decide) rfl (by decide)

theorem c9_witness : collapse_state_maps [] 5 0 = CollapseResult.panicked 5 :=
  c9_collapse_absent_sid_panics [] 5 0 rfl

theorem c6_witness : collapse_state_maps cycForest 1 3 = CollapseResult.outOfFuel :=
  c6_collapse_cycle_diverges cycForest [1, 2] 1 ⟨some 2, []⟩ 2 (by decide)
    (by decide) rfl (by decide) 3

/-- Outcome of the `Checking that state maps match` pass: success, the first
mismatching SID with both collapsed maps (the reported data), a propagated
collapse panic, or a collapse that was still walking at the iteration bound. -/
inductive VerifyResult where
  | ok
  | mismatch (sg : Int) (expected actual : StateMap)
  | aborted (sid : Int)
  | outOfFuel
deriving DecidableEq

/-- The `try_for_each` body of the verification pass, sequentialised: for
each SID collapse in the original and in the new forest and compare; stop at
the first mismatch, carrying the SID and the two collapsed maps that the code
prints before failing. -/
def checkSids (oldF newF : Forest) (fuel : Nat) : List Int → VerifyResult
  | [] => VerifyResult.ok
  | sg :: rest =>
    match collapse_state_maps oldF sg fuel, collapse_state_maps newF sg fuel with
    | CollapseResult.ok e, CollapseResult.ok a =>
      if e = a then checkSids oldF newF fuel rest else VerifyResult.mismatch sg e a
    | CollapseResult.panicked m, _ => VerifyResult.aborted m
    | _, CollapseResult.panicked m => VerifyResult.aborted m
    | _, _ => VerifyResult.outOfFuel

/-- The verification pass of `main`: iterate over the SIDs of the original
forest (`state_group_map.par_iter()`). -/
def checkStateGroups (oldF newF : Forest) (fuel : Nat) : VerifyResult :=
  checkSids oldF newF fuel (forestKeys oldF)

theorem isOk_exists (r : CollapseResult) (h : r.isOk = true) :
    ∃ m, r = CollapseResult.ok m := by
  cases r with
  | ok m => exact ⟨m, rfl⟩
  | panicked s => simp [CollapseResult.isOk] at h
  | outOfFuel => simp [CollapseResult.isOk] at h

theorem checkSids_spec (oldF newF : Forest) (fuel : Nat) :
    ∀ sids : List Int,
      (∀ sg ∈ sids, (collapse_state_maps oldF sg fuel).isOk = true ∧
        (collapse_state_maps newF sg fuel).isOk = true) →
      ((checkSids oldF newF fuel sids = VerifyResult.ok ↔
        ∀ sg ∈ sids,
          collapse_state_maps oldF sg fuel = collapse_state_maps newF sg fuel)
      ∧ (∀ sg e a, checkSids oldF newF fuel sids = VerifyResult.mismatch sg e a →
          sg ∈ sids ∧ collapse_state_maps oldF sg fuel = CollapseResult.ok e ∧
          collapse_state_maps newF sg fuel = CollapseResult.ok a ∧ e ≠ a)
      ∧ (checkSids oldF newF fuel sids = VerifyResult.ok ∨
          ∃ sg e a, checkSids oldF newF fuel sids = VerifyResult.mismatch sg e a)) := by
  intro sids
  induction sids with
  | nil =>
    intro _
    refine ⟨by simp [checkSids], ?_, Or.inl rfl⟩
    intro sg e a hcontra
    simp [checkSids] at hcontra
  | cons sg0 rest ih =>
    intro h
    obtain ⟨ho, hn⟩ := h sg0 (List.mem_cons_self sg0 rest)
    obtain ⟨e0, he0⟩ := isOk_exists _ ho
    obtain ⟨a0, ha0⟩ := isOk_exists _ hn
    have hrest := ih (fun sg hsg => h sg (List.mem_cons_of_mem _ hsg))
    by_cases heq : e0 = a0
    · have hstep : checkSids oldF newF fuel (sg0 :: rest) =
          checkSids oldF newF fuel rest := by
        simp [checkSids, he0, ha0, heq]
      refine ⟨?_, ?_, ?_⟩
      · rw [hstep]
        constructor
        · intro hok sg hsg
          rcases List.mem_cons.mp hsg with hsg | hsg
          · subst hsg; rw [he0, ha0, heq]
          · exact (hrest.1.mp hok) sg hsg
        · intro hall
          exact hrest.1.mpr (fun sg hsg => hall sg (List.mem_cons_of_mem _ hsg))
      · intro sg e a hm
        rw [hstep] at hm
        obtain ⟨hmem, h1, h2, h3⟩ := hrest.2.1 sg e a hm
        exact ⟨List.mem_cons_of_mem _ hmem, h1, h2, h3⟩
      · rw [hstep]; exact hrest.2.2
    · have hstep : checkSids oldF newF fuel (sg0 :: rest) =
          VerifyResult.mismatch sg0 e0 a0 := by
        simp [checkSids, he0, ha0, heq]
      refine ⟨?_, ?_, ?_⟩
      · rw [hstep]
        constructor
        · intro hcontra; simp at hcontra
        · intro hall
          exfalso
          have hsame := hall sg0 (List.mem_cons_self sg0 rest)
          rw [he0, ha0] at hsame
          exact heq (by injection hsame)
      · intro sg e a hm
        rw [hstep] at hm
        simp only [VerifyResult.mismatch.injEq] at hm
        obtain ⟨h1, h2, h3⟩ := hm
        refine ⟨?_, ?_, ?_, ?_⟩
        · rw [← h1]; exact List.mem_cons_self sg0 rest
        · rw [← h1, ← h2]; exact he0
        · rw [← h1, ← h3]; exact ha0
        · rw [← h2, ← h3]; exact heq
      · exact Or.inr ⟨sg0, e0, a0, hstep⟩

/-- C2: the verifier compares, for every SID of the original forest, the
collapsed state in the original forest with the collapsed state in the new
forest; it succeeds exactly when they agree everywhere, and a mismatch
outcome carries a genuinely differing SID together with both collapsed maps
(the data printed before the run fails).  When every per-SID collapse
terminates, the outcome is always either success or such a mismatch. -/
theorem c2_verifier_matches (oldF newF : Forest) (fuel : Nat)
    (h : ∀ sg ∈ forestKeys oldF, (collapse_state_maps oldF sg fuel).isOk = true ∧
      (collapse_state_maps newF sg fuel).isOk = true) :
    (checkStateGroups oldF newF fuel = VerifyResult.ok ↔
      ∀ sg ∈ forestKeys oldF,
        collapse_state_maps oldF sg fuel = collapse_state_maps newF sg fuel)
    ∧ (∀ sg e a, checkStateGroups oldF newF fuel = VerifyResult.mismatch sg e a →
        sg ∈ forestKeys oldF ∧ collapse_state_maps oldF sg fuel = CollapseResult.ok e ∧
        collapse_state_maps newF sg fuel = CollapseResult.ok a ∧ e ≠ a)
    ∧ (checkStateGroups oldF newF fuel = VerifyResult.ok ∨
        ∃ sg e a, checkStateGroups oldF newF fuel = VerifyResult.mismatch sg e a) :=
  checkSids_spec oldF newF fuel (forestKeys oldF) h

theorem c2_witness : checkStateGroups w1Forest w1Forest 1 = VerifyResult.ok :=
  (c2_verifier_matches w1Forest w1Forest 1 (by
    intro sg hsg
    simp [forestKeys, w1Forest] at hsg
    rcases hsg with h | h <;> subst h <;> exact ⟨rfl, rfl⟩)).1.mpr
    (fun _ _ => rfl)

theorem checkSids_ok_forall (oldF newF : Forest) (fuel : Nat) :
    ∀ sids : List Int, checkSids oldF newF fuel sids = VerifyResult.ok →
      ∀ sg ∈ sids, ∃ m, collapse_state_maps oldF sg fuel = CollapseResult.ok m ∧
        collapse_state_maps newF sg fuel = CollapseResult.ok m := by
  intro sids
  induction sids with
  | nil => intro _ sg hsg; cases hsg
  | cons sg0 rest ih =>
    intro hok sg hsg
    cases ho : collapse_state_maps oldF sg0 fuel with
    | ok e0 =>
      cases hn : collapse_state_maps newF sg0 fuel with
      | ok a0 =>
        by_cases heq : e0 = a0
        · have hstep : checkSids oldF newF fuel (sg0 :: rest) =
              checkSids oldF newF fuel rest := by
            simp [checkSids, ho, hn, heq]
          rcases List.mem_cons.mp hsg with hsg | hsg
          · subst hsg
            exact ⟨e0, ho, by rw [hn, heq]⟩
          · exact ih (hstep ▸ hok) sg hsg
        · rw [checkSids] at hok
          simp [ho, hn, heq] at hok
      | panicked m => rw [checkSids] at hok; simp [ho, hn] at hok
      | outOfFuel => rw [checkSids] at hok; simp [ho, hn] at hok
    | panicked m => rw [checkSids] at hok; simp [ho] at hok
    | outOfFuel =>
      cases hn : collapse_state_maps newF sg0 fuel with
      | ok a0 => rw [checkSids] at hok; simp [ho, hn] at hok
      | panicked m => rw [checkSids] at hok; simp [ho, hn] at hok
      | outOfFuel => rw [checkSids] at hok; simp [ho, hn] at hok

/-- Original forest for the C10 instance: only SID 1. -/
def c10OldForest : Forest := [(1, ⟨none, [(("m", "a"), "x")]⟩)]

/-- New forest for the C10 instance: SID 1 unchanged plus the extra SID 5,
whose collapsed state matches nothing in the original forest. -/
def c10NewForest : Forest :=
  [(1, ⟨none, [(("m", "a"), "x")]⟩), (5, ⟨none, [(("m", "b"), "y")]⟩)]

/-- C10: the verification pass quantifies exactly over the SID set of the
original forest — a successful check certifies every SID that is a key of
the original map, and a SID present only in the new forest is never compared
(the concrete instance passes although the extra SID 5 disagrees). -/
theorem c10_verifier_quantifies_original (oldF newF : Forest) (fuel : Nat) :
    (checkStateGroups oldF newF fuel = VerifyResult.ok →
      ∀ sg ∈ forestKeys oldF, ∃ m,
        collapse_state_maps oldF sg fuel = CollapseResult.ok m ∧
        collapse_state_maps newF sg fuel = CollapseResult.ok m)
    ∧ (checkStateGroups c10OldForest c10NewForest 1 = VerifyResult.ok
       ∧ collapse_state_maps c10NewForest 5 1 ≠ collapse_state_maps c10OldForest 5 1) :=
  ⟨checkSids_ok_forall oldF newF fuel (forestKeys oldF), rfl, by
    have h1 : collapse_state_maps c10NewForest 5 1 =
        CollapseResult.ok [(("m", "b"), "y")] := rfl
    have h2 : collapse_state_maps c10OldForest 5 1 = CollapseResult.panicked 5 := rfl
    rw [h1, h2]
    intro hcontra
    cases hcontra⟩

theorem c10_witness :
    ∃ m, collapse_state_maps c10OldForest 1 1 = CollapseResult.ok m ∧
      collapse_state_maps c10NewForest 1 1 = CollapseResult.ok m :=
  (c10_verifier_quantifies_original c10OldForest c10NewForest 1).1 rfl 1 (by decide)

/-- The single-quote character. -/
def sq : Char := Char.ofNat 39

/-- Modelled from the spec: `PGEscapse` lives in the `database` module, which
is not among the provided sources.  Per the spec, escaping for the emitted
SQL doubles any embedded single quote; no other character is special. -/
def escapeBody : List Char → List Char
  | [] => []
  | c :: rest => if c = sq then sq :: sq :: escapeBody rest else c :: escapeBody rest

/-- Modelled from the spec: the escaped string is wrapped in single quotes. -/
def pgEscape (s : String) : String :=
  String.mk (sq :: (escapeBody s.data ++ [sq]))

/-- One row of the multi-row INSERT: the formatted
`({sg}, {room}, {type}, {state_key}, {event_id})` tuple. -/
def rowLine (room : String) (sg : Int) (kv : SKey × String) : String :=
  "(" ++ toString sg ++ ", " ++ pgEscape room ++ ", " ++ pgEscape kv.1.1 ++ ", "
    ++ pgEscape kv.1.2 ++ ", " ++ pgEscape kv.2 ++ ")"

/-- The INSERT block written for a non-empty delta: the header line, the
first row led by five spaces, later rows led by four spaces and a comma, and
the closing semicolon.  An empty delta writes nothing (the
`!new_entry.state_map.is_empty()` guard). -/
def insertBlock (room : String) (sg : Int) : StateMap → List String
  | [] => []
  | kv :: rest =>
    "INSERT INTO state_groups_state (state_group, room_id, type, state_key, event_id) VALUES"
      :: ("     " ++ rowLine room sg kv)
      :: (rest.map (fun kv2 => "    ," ++ rowLine room sg kv2) ++ [";"])

/-- The lines written for one changed SID: optional BEGIN, the edge delete,
the optional new edge insert, the rows delete, the optional INSERT block,
optional COMMIT, and the final blank line. -/
def entryLines (room : String) (transactions : Bool) (sg : Int)
    (newEntry : StateGroupEntry) : List String :=
  (if transactions then ["BEGIN;"] else [])
  ++ ["DELETE FROM state_group_edges WHERE state_group = " ++ toString sg ++ ";"]
  ++ (match newEntry.prev_state_group with
      | some p =>
        ["INSERT INTO state_group_edges (state_group, prev_state_group) VALUES ("
          ++ toString sg ++ ", " ++ toString p ++ ");"]
      | none => [])
  ++ ["DELETE FROM state_groups_state WHERE state_group = " ++ toString sg ++ ";"]
  ++ insertBlock room sg newEntry.state_map
  ++ (if transactions then ["COMMIT;"] else [])
  ++ [""]

/-- The emitter's treatment of one SID: nothing when the old and new entries
are equal, the full edit group otherwise (`if old_entry != new_entry`). -/
def sidLines (room : String) (transactions : Bool) (sg : Int)
    (oldEntry newEntry : StateGroupEntry) : List String :=
  if oldEntry = newEntry then [] else entryLines room transactions sg newEntry

/-- The whole `Writing changes...` loop: iterate the old forest in map order,
look each SID up in the new forest (`new_state_group_map[sg]` panics when the
SID is absent, reported as `Except.error`), and concatenate the per-SID
lines. -/
def writeChanges (room : String) (transactions : Bool) (newF : Forest) :
    Forest → Except Int (List String)
  | [] => Except.ok []
  | (sg, oldEntry) :: rest =>
    match findEntry newF sg with
    | none => Except.error sg
    | some newEntry =>
      match writeChanges room transactions newF rest with
      | Except.ok ls =>
        Except.ok (sidLines room transactions sg oldEntry newEntry ++ ls)
      | Except.error e => Except.error e

/-- The per-SID logical edit sequence exactly as the spec's DiffEmitter
section words it: (1) remove the predecessor edge for the SID; (2) when the
new entry has a predecessor `p`, add the edge `(sg, p)`; (3) remove all delta
rows for the SID; (4) when the new delta is non-empty, insert one row per
key/value pair, carrying the grouping identifier. -/
def specEditSequence (room : String) (sg : Int) (e : StateGroupEntry) : List String :=
  ["DELETE FROM state_group_edges WHERE state_group = " ++ toString sg ++ ";"]
  ++ (match e.prev_state_group with
      | some p =>
        ["INSERT INTO state_group_edges (state_group, prev_state_group) VALUES ("
          ++ toString sg ++ ", " ++ toString p ++ ");"]
      | none => [])
  ++ ["DELETE FROM state_groups_state WHERE state_group = " ++ toString sg ++ ";"]
  ++ (if e.state_map.isEmpty then [] else insertBlock room sg e.state_map)

/-- C3: the emitter produces output for a SID exactly when the old and new
entries differ, and for such a SID (transactions off) it emits precisely the
spec's edit sequence — edge delete, conditional edge insert, row delete,
conditional row inserts — followed by the separating blank line. -/
theorem c3_emitter_diff (room : String) (sg : Int) (o n : StateGroupEntry) :
    (sidLines room false sg o n = [] ↔ o = n)
    ∧ (o ≠ n → sidLines room false sg o n = specEditSequence room sg n ++ [""]) := by
  constructor
  · constructor
    · intro h
      by_contra hne
      rw [sidLines, if_neg hne] at h
      simp [entryLines] at h
    · intro h
      simp [sidLines, h]
  · intro hne
    rw [sidLines, if_neg hne]
    cases n with
    | mk prev sm =>
      cases sm with
      | nil => cases prev <;> simp [entryLines, specEditSequence, insertBlock]
      | cons kv rest => cases prev <;> simp [entryLines, specEditSequence, insertBlock]

theorem c3_witness :
    sidLines "r1" false 2 ⟨none, []⟩ ⟨some 1, [(("m", "a"), "e1")]⟩ =
      specEditSequence "r1" 2 ⟨some 1, [(("m", "a"), "e1")]⟩ ++ [""] :=
  (c3_emitter_diff "r1" 2 ⟨none, []⟩ ⟨some 1, [(("m", "a"), "e1")]⟩).2 (by decide)

theorem writeChanges_join (room : String) (transactions : Bool) (newF : Forest) :
    ∀ oldF : Forest, (∀ p ∈ oldF, (findEntry newF p.1).isSome = true) →
      writeChanges room transactions newF oldF =
        Except.ok ((oldF.map (fun p =>
          sidLines room transactions p.1 p.2
            ((findEntry newF p.1).getD ⟨none, []⟩))).flatten) := by
  intro oldF
  induction oldF with
  | nil => intro _; rfl
  | cons p rest ih =>
    intro h
    obtain ⟨sg, oldEntry⟩ := p
    have hsome := h (sg, oldEntry) (List.mem_cons_self (sg, oldEntry) rest)
    rw [Option.isSome_iff_exists] at hsome
    obtain ⟨newEntry, hne⟩ := hsome
    have hrest := ih (fun q hq => h q (List.mem_cons_of_mem _ hq))
    simp [writeChanges, hne, hrest]

/-- C4: the diff stream is the concatenation, over the old forest in its map
order, of one contiguous edit group per SID; since the map iterates its keys
in ascending order, the stream is ordered by SID ascending and one SID's
group is never interleaved with another's. -/
theorem c4_emission_order (room : String) (transactions : Bool)
    (oldF newF : Forest)
    (hpresent : ∀ p ∈ oldF, (findEntry newF p.1).isSome = true)
    (hsorted : List.Chain' (· < ·) (forestKeys oldF)) :
    writeChanges room transactions newF oldF =
      Except.ok ((oldF.map (fun p =>
        sidLines room transactions p.1 p.2
          ((findEntry newF p.1).getD ⟨none, []⟩))).flatten)
    ∧ List.Chain' (· < ·) (forestKeys oldF) :=
  ⟨writeChanges_join room transactions newF oldF hpresent, hsorted⟩

/-- New forest used by the emitter witnesses: SID 1 unchanged, SID 2 reduced
to an empty delta. -/
def w4NewForest : Forest :=
  [(1, ⟨none, [(("m", "a"), "e1"), (("m", "b"), "e2")]⟩), (2, ⟨some 1, []⟩)]

theorem c4_witness :
    writeChanges "r1" true w4NewForest w1Forest =
      Except.ok ((w1Forest.map (fun p =>
        sidLines "r1" true p.1 p.2
          ((findEntry w4NewForest p.1).getD ⟨none, []⟩))).flatten)
    ∧ List.Chain' (· < ·) (forestKeys w1Forest) :=
  c4_emission_order "r1" true w1Forest w4NewForest (by decide)
    (by simp [forestKeys, w1Forest, List.chain'_cons])

/-- C8: the diff emission is a pure function of the forest pair and the
configuration (room id, transactions flag): two runs over the same input
yield the same output lines — there is no dependence on randomness or
time. -/
theorem c8_emission_deterministic (room : String) (transactions : Bool)
    (oldF newF : Forest) (out1 out2 : Except Int (List String))
    (h1 : writeChanges room transactions newF oldF = out1)
    (h2 : writeChanges room transactions newF oldF = out2) : out1 = out2 := by
  rw [← h1, ← h2]

theorem c8_witness :
    writeChanges "r1" false w4NewForest w1Forest =
      writeChanges "r1" false w4NewForest w1Forest :=
  c8_emission_deterministic "r1" false w1Forest w4NewForest _ _ rfl rfl

/-- Modelled from Rust std semantics: `str::parse::<usize>` accepts an
optional leading plus sign followed by one or more ASCII digits, provided the
value fits the 64-bit usize range; everything else (empty chunk, minus sign,
other characters, overflow) is rejected. -/
def parseUsizeChars (cs : List Char) : Option Nat :=
  let digits :=
    match cs with
    | c :: rest => if c = '+' then rest else cs
    | [] => []
  if digits = [] then none
  else if digits.all Char.isDigit then
    let v := digits.foldl (fun acc c => acc * 10 + (c.toNat - 48)) 0
    if v < 2 ^ 64 then some v else none
  else none

/-- Rust's `s.split(',')` on the underlying characters: the comma-separated
chunks; an empty input yields one empty chunk, and adjacent commas yield
empty chunks. -/
def splitComma : List Char → List (List Char)
  | [] => [[]]
  | c :: rest =>
    match splitComma rest with
    | [] => [[]]
    | g :: gs => if c = ',' then [] :: g :: gs else (c :: g) :: gs

/-- The loop of `LevelSizes::from_str`: parse every chunk, collecting the
sizes, and return the fixed error message on the first chunk that fails. -/
def parseSizes : List (List Char) → Except String (List Nat)
  | [] => Except.ok []
  | c :: rest =>
    match parseUsizeChars c with
    | none => Except.error "Not a comma separated list of numbers"
    | some n =>
      match parseSizes rest with
      | Except.ok ns => Except.ok (n :: ns)
      | Except.error e => Except.error e

/-- `LevelSizes::from_str` from `main.rs`: split on commas and parse each
chunk as a usize. -/
def levelSizesFromStr (s : String) : Except String (List Nat) :=
  parseSizes (splitComma s.data)

/-- Whether the level-sizes parse succeeded. -/
def sizesOk : Except String (List Nat) → Bool
  | Except.ok _ => true
  | Except.error _ => false

theorem parseSizes_spec :
    ∀ l : List (List Char),
      (sizesOk (parseSizes l) = true ↔ ∀ c ∈ l, (parseUsizeChars c).isSome = true)
      ∧ (∀ e, parseSizes l = Except.error e →
          e = "Not a comma separated list of numbers") := by
  intro l
  induction l with
  | nil =>
    refine ⟨by simp [parseSizes, sizesOk], ?_⟩
    intro e h
    simp [parseSizes] at h
  | cons c rest ih =>
    cases hp : parseUsizeChars c with
    | none =>
      have hstep : parseSizes (c :: rest) =
          Except.error "Not a comma separated list of numbers" := by
        simp [parseSizes, hp]
      refine ⟨?_, ?_⟩
      · rw [hstep]
        constructor
        · intro hcontra; simp [sizesOk] at hcontra
        · intro hall
          have := hall c (List.mem_cons_self c rest)
          rw [hp] at this
          simp at this
      · intro e he
        rw [hstep] at he
        simp only [Except.error.injEq] at he
        exact he.symm
    | some n =>
      cases hr : parseSizes rest with
      | ok ns =>
        have hstep : parseSizes (c :: rest) = Except.ok (n :: ns) := by
          simp [parseSizes, hp, hr]
        refine ⟨?_, ?_⟩
        · rw [hstep]
          constructor
          · intro _ c2 hc2
            rcases List.mem_cons.mp hc2 with hc2 | hc2
            · subst hc2; simp [hp]
            · exact ih.1.mp (by rw [hr]; rfl) c2 hc2
          · intro _; rfl
        · intro e he
          rw [hstep] at he
          cases he
      | error e2 =>
        have hstep : parseSizes (c :: rest) = Except.error e2 := by
          simp [parseSizes, hp, hr]
        refine ⟨?_, ?_⟩
        · rw [hstep]
          constructor
          · intro hcontra; simp [sizesOk] at hcontra
          · intro hall
            have hrest := ih.1.mpr (fun c2 hc2 => hall c2 (List.mem_cons_of_mem _ hc2))
            rw [hr] at hrest
            simp [sizesOk] at hrest
        · intro e he
          rw [hstep] at he
          simp only [Except.error.injEq] at he
          rw [← he]
          exact ih.2 e2 hr

/-- C7 (amended): parsing the level_sizes option succeeds exactly when every
comma-separated chunk is a well-formed usize literal — an optional plus sign
followed by ASCII digits whose value fits 64 bits.  Zero is such a literal,
so accepted capacities are only guaranteed non-negative, not positive; any
malformed string is rejected at startup with the fixed parse error. -/
theorem c7_level_sizes_parse (s : String) :
    (sizesOk (levelSizesFromStr s) = true ↔
      ∀ c ∈ splitComma s.data, (parseUsizeChars c).isSome = true)
    ∧ (∀ e, levelSizesFromStr s = Except.error e →
        e = "Not a comma separated list of numbers") :=
  parseSizes_spec (splitComma s.data)

/-- C7 counterexample: the string "0" is accepted by `LevelSizes::from_str`
and yields the single capacity 0, which is not a positive integer — so the
parser does not accept exactly the lists of positive integers. -/
theorem c7_counterexample :
    levelSizesFromStr "0" = Except.ok [0] ∧ ¬ (1 ≤ 0) := by
  exact ⟨rfl, by decide⟩

theorem c7_witness : sizesOk (levelSizesFromStr "100,50,25") = true :=
  (c7_level_sizes_parse "100,50,25").1.mpr (by decide)

end SynapseCompress
